import Mathlib

/-!
# Verification of the secure_packager envelope-encryption and licensing core

This file gives a shallow embedding, in Lean 4, of the core protocol code of
the `secure_packager` repository:

* the packager command (embedded in the repository `Dockerfile`,
  `main`/`encryptFilesWithFernet`/`wrapFernetKey`/`zipOutputs`),
* the unpack command (`cmd/unpack/main.go`:
  `unzip`, `unwrapFernetKey`, `decryptDirWithFernet`, `main`,
  `verifyAndEnforceLicense`),
* the token issuer (`cmd/issue-token/main.go`),
* the integration library (`SecurePackager.DecryptZip` and friends).

Go strings and byte slices are modelled as lists of bytes (`Fin 256`);
directories as association lists from file name to content; machine time as
integer seconds.  Cryptographic primitives provided by external libraries
(`crypto/rsa`, `crypto/sha256`, `github.com/fernet/fernet-go`) are modelled
by their ideal functionality as executable symbolic operations; each such
definition carries a doc comment saying exactly what is idealised.
All other definitions are direct translations of the Go source.
-/

namespace SecPack

/-- A Go byte. -/
abbrev B : Type := Fin 256

/-- A Go string / byte slice: a list of bytes. -/
abbrev BStr : Type := List B

/-- Embed a Lean string literal as a Go byte string (ASCII subset; every
character used in the source literals is a single byte). -/
def bs (s : String) : BStr := s.toList.map (fun c => Fin.ofNat c.toNat)

/-- Build a byte from a `Nat` (used where the source does byte arithmetic). -/
def byt (n : Nat) : B := Fin.ofNat n

/-- Test `hasPfx p s` : `p` is a leading segment of `s` (Go `strings.HasPrefix s p`). -/
def hasPfx : BStr → BStr → Bool
  | [], _ => true
  | _ :: _, [] => false
  | p :: ps, c :: cs => p == c && hasPfx ps cs

/-- Go `strings.Contains s pat` (pattern argument first here). -/
def containsSub (pat : BStr) : BStr → Bool
  | [] => hasPfx pat []
  | c :: cs => hasPfx pat (c :: cs) || containsSub pat cs

/-- Go `strings.HasSuffix s suf`. -/
def hasSfx (s suf : BStr) : Bool := hasPfx suf.reverse s.reverse

/-- Go `strings.TrimSuffix s suf`. -/
def trimSfx (s suf : BStr) : BStr :=
  if hasSfx s suf then s.take (s.length - suf.length) else s

/-- Whitespace bytes recognised by the model of `strings.TrimSpace`
(ASCII subset of Unicode white space). -/
def isSpaceB (b : B) : Bool :=
  b.val == 9 || b.val == 10 || b.val == 11 || b.val == 12 || b.val == 13 || b.val == 32

/-- Go `strings.TrimSpace` (ASCII white space). -/
def trimSpace (s : BStr) : BStr :=
  ((s.dropWhile isSpaceB).reverse.dropWhile isSpaceB).reverse

/-- Split a byte string at the first occurrence of `sep`; `none` when `sep`
does not occur. -/
def splitFirst (sep : B) : BStr → Option (BStr × BStr)
  | [] => none
  | c :: rest =>
    if c == sep then some ([], rest)
    else
      match splitFirst sep rest with
      | none => none
      | some (a, b) => some (c :: a, b)

/-- Go `strings.SplitN s sep n` for a one-byte separator and `n ≥ 1`:
at most `n` pieces, the last piece unsplit. -/
def splitNB (sep : B) : Nat → BStr → List BStr
  | 0, s => [s]
  | 1, s => [s]
  | n + 2, s =>
    match splitFirst sep s with
    | none => [s]
    | some (a, b) => a :: splitNB sep (n + 1) b

/-- Look up the content of a file `n` in a directory listing (first match),
as `os.ReadFile` on a modelled directory. -/
def lookupD (d : List (BStr × α)) (n : BStr) : Option α :=
  (d.find? (fun p => p.1 == n)).map (·.2)

/-! ## License expiry enforcement (`cmd/unpack/main.go` lines 269–292)

Time instants are integer seconds.  The Go code compares `time.Time` values
(`now.After(expiry)`) and a floating-point day count
`remaining := expiry.Sub(now).Hours() / 24`; on the integer-second instants
the program produces, `remaining ≤ 1` is `diff ≤ 86400` seconds and
`remaining ≤ 7` is `diff ≤ 604800` seconds, exactly. -/

/-- Outcome of the expiry-enforcement tail of `verifyAndEnforceLicense`. -/
inductive LicOutcome where
  | expired  -- `now.After(expiry)`: returned as a fatal error
  | blocked  -- `remaining <= 1`: fatal hard block within 24 hours of expiry
  | warnOk   -- `remaining <= 7`: non-fatal warning printed, verification succeeds
  | fullOk   -- more than 7 days left: informational success
  deriving DecidableEq

/-- The expiry-policy tail of `verifyAndEnforceLicense`
(`cmd/unpack/main.go` lines 275–292), with `nowS`/`expiryS` in seconds:
first the strict `now.After(expiry)` check, then the warning branch for
`remaining <= 7` days, then the hard block for `remaining <= 1` day. -/
def enforceExpiry (nowS expiryS : Int) : LicOutcome :=
  if expiryS < nowS then .expired
  else
    -- remaining := expiry.Sub(now).Hours() / 24, exact on integer seconds
    let warned := expiryS - nowS ≤ 7 * 86400
    if expiryS - nowS ≤ 86400 then .blocked
    else if warned then .warnOk
    else .fullOk

/-! ## Byte-string contents and ideal cryptographic primitives

File contents are a symbolic term algebra: plain text, fernet tokens and
OAEP-wrapped keys are distinguished constructors.  This is the standard
ideal (Dolev–Yao style) model of the external cryptographic libraries: a
ciphertext can be opened exactly by the matching key, and by nothing else. -/

/-- Content of a file in the model.  `fernetTok k ts d` is the fernet token
produced by `fernet.EncryptAndSign` under key id `k` at timestamp `ts`
(seconds); `oaepKeyCT pub label k` is the `rsa.EncryptOAEP` wrapping of the
textual encoding of fernet key `k` under RSA public key id `pub` with OAEP
label `label` (the `key.Encode()`/`fernet.MustDecodeKeys` codec pair of the
source is folded into this constructor); `pubPem`/`privPem` are parsed PEM
key files. -/
inductive Bytes where
  | txt : BStr → Bytes
  | fernetTok : Nat → Int → Bytes → Bytes
  | oaepKeyCT : Nat → BStr → Nat → Bytes
  | pubPem : Nat → Bytes
  | privPem : Nat → Bytes
  deriving DecidableEq

/-- A directory listing: file names with contents, in listing order. -/
abbrev Dir : Type := List (BStr × Bytes)

/-- The OAEP domain-separation label `[]byte("secure_packager")` used by both
`wrapFernetKey` and `unwrapFernetKey`. -/
def oaepLabel : BStr := bs "secure_packager"

/-- Modelled from the spec of `github.com/fernet/fernet-go`:
`fernet.EncryptAndSign(data, k)` — the authenticated token embeds the key,
the creation timestamp and the plaintext. -/
def fernetEncryptAndSign (data : Bytes) (k : Nat) (ts : Int) : Bytes :=
  .fernetTok k ts data

/-- Maximum clock skew accepted by fernet verification (60 seconds in
`fernet-go`). -/
def fernetMaxSkew : Int := 60

/-- Modelled from the spec of `github.com/fernet/fernet-go`:
`fernet.VerifyAndDecrypt(tok, ttl, keys)` — returns the plaintext iff the
token verifies under one of `keys`; when `ttl ≥ 1ns` the token is also
rejected if older than `ttl` or timestamped more than the allowed skew into
the future; a `ttl` of zero disables the age check entirely. -/
def fernetVerifyAndDecrypt (tok : Bytes) (ttl : Int) (keys : List Nat)
    (now : Int) : Option Bytes :=
  match tok with
  | .fernetTok k ts data =>
    if k ∈ keys then
      if 0 < ttl ∧ (ts + ttl < now ∨ now + fernetMaxSkew < ts) then none
      else some data
    else none
  | _ => none

/-- Function `wrapFernetKey` (packager, `Dockerfile` lines 124–133): RSA-OAEP/SHA-256
encryption of the encoded fernet key under the recipient public key with the
fixed label. -/
def wrapFernetKey (pub : Nat) (key : Nat) : Bytes :=
  .oaepKeyCT pub oaepLabel key

/-- Function `unwrapFernetKey` (`cmd/unpack/main.go` lines 87–99): RSA-OAEP decryption
with the fixed label, then decoding of the recovered fernet key.  In the
ideal model decryption succeeds exactly for the matching private key id and
the identical label. -/
def unwrapFernetKey (priv : Nat) (wrapped : Bytes) : Option Nat :=
  match wrapped with
  | .oaepKeyCT pub label k =>
    if pub = priv ∧ label = oaepLabel then some k else none
  | _ => none

/-- The ciphertext-marker suffix `".enc"`. -/
def encSuffix : BStr := bs ".enc"

/-- Function `encryptFilesWithFernet` (packager, `Dockerfile` lines 94–122): each
(non-directory) entry of the input listing is encrypted under the package
key into `<name>.enc`.  The model input is the flat file listing, so the
`e.IsDir()` skip has no residue. -/
def encryptFilesWithFernet (key : Nat) (ts : Int) (inputDir : Dir) : Dir :=
  inputDir.map (fun e => (e.1 ++ encSuffix, fernetEncryptAndSign e.2 key ts))

/-- Function `decryptDirWithFernet` (`cmd/unpack/main.go` lines 101–129): walk the
extracted working directory; skip entries without the `".enc"` suffix;
decrypt each remaining entry with `fernet.VerifyAndDecrypt(data, 0, keys)`
and write the plaintext under the name with the suffix stripped; a `nil`
decryption result aborts the walk with an error naming the entry.
Returns the files written to the output directory (in order) and the name
of the failing entry, if any. -/
def decryptDirWithFernet (k : Nat) (now : Int) :
    Dir → Dir × Option BStr
  | [] => ([], none)
  | (name, data) :: rest =>
    if hasSfx name encSuffix then
      match fernetVerifyAndDecrypt data 0 [k] now with
      | none => ([], some name)
      | some pt =>
        let r := decryptDirWithFernet k now rest
        ((trimSfx name encSuffix, pt) :: r.1, r.2)
    else decryptDirWithFernet k now rest

/-! ## base64url codec (Go `encoding/base64` `URLEncoding`, with padding) -/

/-- The base64url alphabet. -/
def b64Chars : BStr :=
  bs "ABCDEFGHIJKLMNOPQRSTUVWXYZabcdefghijklmnopqrstuvwxyz0123456789-_"

/-- The padding byte `'='`. -/
def padB : B := byt 61

/-- The field separator byte `':'`. -/
def colonB : B := byt 58

/-- Character for a six-bit group (`n < 64` at every use site). -/
def sextetB (n : Nat) : B := b64Chars.getD n (byt 65)

/-- Decode one base64url character to its six-bit value. -/
def b64decChar (c : B) : Option Nat := b64Chars.findIdx? (· == c)

/-- Model of `base64.URLEncoding.EncodeToString`: three bytes per four characters,
`'='`-padded final quantum. -/
def b64encode : BStr → BStr
  | [] => []
  | [a] => [sextetB (a.val / 4), sextetB (a.val % 4 * 16), padB, padB]
  | [a, b] => [sextetB (a.val / 4), sextetB (a.val % 4 * 16 + b.val / 16),
               sextetB (b.val % 16 * 4), padB]
  | a :: b :: c :: rest =>
    sextetB (a.val / 4) :: sextetB (a.val % 4 * 16 + b.val / 16)
      :: sextetB (b.val % 16 * 4 + c.val / 64) :: sextetB (c.val % 64)
      :: b64encode rest

/-- Model of `base64.URLEncoding.DecodeString`: four characters per quantum, padding
only in the final quantum, `none` on any malformed input. -/
def b64decode : BStr → Option BStr
  | [] => some []
  | c1 :: c2 :: c3 :: c4 :: rest =>
    match b64decChar c1, b64decChar c2 with
    | some s1, some s2 =>
      if c3 == padB && c4 == padB then
        if rest.isEmpty then some [byt (s1 * 4 + s2 / 16)] else none
      else if c4 == padB then
        match b64decChar c3 with
        | some s3 =>
          if rest.isEmpty then
            some [byt (s1 * 4 + s2 / 16), byt (s2 % 16 * 16 + s3 / 4)]
          else none
        | none => none
      else
        match b64decChar c3, b64decChar c4 with
        | some s3, some s4 =>
          match b64decode rest with
          | some tail =>
            some (byt (s1 * 4 + s2 / 16) :: byt (s2 % 16 * 16 + s3 / 4)
              :: byt (s3 % 4 * 64 + s4) :: tail)
          | none => none
        | _, _ => none
    | _, _ => none
  | _ => none

/-! ## Ideal hash and signature primitives -/

/-- Modelled from the spec: the SHA-256 digest (`sha256.Sum256`), idealised
as an injective function of the message — here the message itself, since
only equality of digests is ever observed. -/
def sha256M (payload : BStr) : BStr := payload

/-- Modelled from the spec: `rsa.SignPSS` under private key id `keyId`,
idealised as the canonical signature determined by the key and the digest
(PSS salt randomness abstracted away).  The encoding is injective in
`keyId` and the digest. -/
def pssSign (keyId : Nat) (digest : BStr) : BStr :=
  List.replicate keyId (byt 0) ++ byt 1 :: digest

/-- Modelled from the spec: `rsa.VerifyPSS` under public key id `pubId` —
succeeds exactly on the matching key's signature over the same digest. -/
def pssVerify (pubId : Nat) (digest sig : BStr) : Bool :=
  sig == pssSign pubId digest

/-! ## Dates (`time.Parse("2006-01-02", ·)`) -/

/-- A parsed civil date. -/
structure Date where
  year : Nat
  month : Nat
  day : Nat
  deriving DecidableEq

/-- Gregorian leap-year rule. -/
def isLeap (y : Nat) : Bool := (y % 4 == 0 && y % 100 != 0) || y % 400 == 0

/-- Days in a month of a given year. -/
def daysInMonth (y m : Nat) : Nat :=
  if m = 2 then (if isLeap y then 29 else 28)
  else if m = 4 ∨ m = 6 ∨ m = 9 ∨ m = 11 then 30 else 31

/-- ASCII digit test. -/
def isDigitB (b : B) : Bool := 48 ≤ b.val && b.val ≤ 57

/-- Numeric value of a digit string. -/
def digitsToNat (l : BStr) : Nat := l.foldl (fun acc b => acc * 10 + (b.val - 48)) 0

/-- Model of Go `time.Parse("2006-01-02", s)`: exactly ten bytes
`YYYY-MM-DD`, month and day validated against the calendar. -/
def parseDate (s : BStr) : Option Date :=
  match s with
  | [y1, y2, y3, y4, h1, m1, m2, h2, d1, d2] =>
    if isDigitB y1 && isDigitB y2 && isDigitB y3 && isDigitB y4
        && isDigitB m1 && isDigitB m2 && isDigitB d1 && isDigitB d2
        && h1 == byt 45 && h2 == byt 45 then
      let y := digitsToNat [y1, y2, y3, y4]
      let m := digitsToNat [m1, m2]
      let d := digitsToNat [d1, d2]
      if 1 ≤ m && m ≤ 12 && 1 ≤ d && d ≤ daysInMonth y m then
        some ⟨y, m, d⟩
      else none
    else none
  | _ => none

/-- Days since the Unix epoch of a civil date (proleptic Gregorian, the
standard era-based computation). -/
def daysFromCivil (dt : Date) : Int :=
  let y : Int := if dt.month ≤ 2 then (dt.year : Int) - 1 else (dt.year : Int)
  let era : Int := (if 0 ≤ y then y else y - 399) / 400
  let yoe : Int := y - era * 400
  let mp : Int := ((dt.month : Int) + 9) % 12
  let doy : Int := (153 * mp + 2) / 5 + (dt.day : Int) - 1
  let doe : Int := yoe * 365 + yoe / 4 - yoe / 100 + doy
  era * 146097 + doe - 719468

/-- The `time.Time` of midnight UTC on a date, in seconds since the epoch
(what `time.Parse("2006-01-02", ·)` yields). -/
def dateSecs (dt : Date) : Int := 86400 * daysFromCivil dt

/-! ## License token issue and verification -/

/-- The reserved legacy field `"NOFERNET"` kept for format compatibility. -/
def reservedField : BStr := bs "NOFERNET"

/-- Errors of `verifyAndEnforceLicense` (`cmd/unpack/main.go` 214–293). -/
inductive LicErr where
  | readPub    -- reading the vendor public key file failed
  | badPub     -- invalid PEM / parse failure / not an RSA key
  | readToken  -- reading the license token file failed
  | badB64     -- "invalid token b64"
  | badFormat  -- "invalid token format" (SplitN yielded fewer than 5 parts)
  | badSigB64  -- "invalid signature b64"
  | sigInvalid -- "token signature invalid"
  | badExpiry  -- "invalid expiry date"
  | expired    -- "Token expired"
  | blocked    -- "Model access blocked - license expires within 24 hours"
  deriving DecidableEq

/-- The structured license information displayed by the verifier. -/
structure LicInfo where
  company : BStr
  email : BStr
  expiry : Date
  deriving DecidableEq

/-- The token-verification phase of `verifyAndEnforceLicense`
(`cmd/unpack/main.go` lines 236–261): trim, base64url-decode,
`strings.SplitN(decoded, ":", 5)` with a format error unless five parts
result, base64url-decode of the signature field, RSA-PSS check over the
SHA-256 digest of the first four fields re-joined with colons, then
expiry-date parse. -/
def verifyTokenPhase (pub : Nat) (tokenFileContent : BStr) : Except LicErr LicInfo :=
  match b64decode (trimSpace tokenFileContent) with
  | none => .error .badB64
  | some decoded =>
    match splitNB colonB 5 decoded with
    | [expiryStr, company, email, kB64, sigB64] =>
      match b64decode sigB64 with
      | none => .error .badSigB64
      | some sig =>
        let payload := expiryStr ++ colonB :: company ++ colonB :: email
          ++ colonB :: kB64
        if pssVerify pub (sha256M payload) sig then
          match parseDate expiryStr with
          | none => .error .badExpiry
          | some dt => .ok ⟨company, email, dt⟩
        else .error .sigInvalid
    | _ => .error .badFormat

/-- Function `verifyAndEnforceLicense` (`cmd/unpack/main.go` lines 214–293): read and
parse the vendor public key, read the token file, run the token phase, then
enforce the expiry policy at `nowS` (the current time, or the `FAKE_NOW`
override, in seconds). -/
def verifyAndEnforceLicense (vendorPubFile : Option Bytes)
    (tokenFile : Option Bytes) (nowS : Int) : Except LicErr LicInfo :=
  match vendorPubFile with
  | none => .error .readPub
  | some (.pubPem pub) =>
    match tokenFile with
    | none => .error .readToken
    | some (.txt tok) =>
      (match verifyTokenPhase pub tok with
      | .error e => .error e
      | .ok info =>
        match enforceExpiry nowS (dateSecs info.expiry) with
        | .expired => .error .expired
        | .blocked => .error .blocked
        | .warnOk => .ok info
        | .fullOk => .ok info)
    | some _ => .error .badB64
  | some _ => .error .badPub

/-- Arguments of the `issue-token` command (key already read and parsed;
`none` models an unreadable/invalid private key). -/
structure IssueArgs where
  privParse : Option Nat
  expiry : BStr
  company : BStr
  email : BStr

/-- Fatal outcomes of `issue-token`. -/
inductive IssueErr where
  | usage      -- a required flag is missing
  | badExpiry  -- "invalid expiry"
  | badPriv    -- "reading private key failed"
  deriving DecidableEq

/-- Command `issue-token` `main` (`cmd/issue-token/main.go` lines 41–81): flag
checks, expiry-parse check, key read, payload
`expiry:company:email:NOFERNET`, RSA-PSS/SHA-256 signature, token
`payload:sigB64`, all base64url-encoded as one line. -/
def issueToken (a : IssueArgs) : Except IssueErr BStr :=
  if a.expiry = [] ∨ a.company = [] ∨ a.email = [] then .error .usage
  else if (parseDate a.expiry).isNone then .error .badExpiry
  else
    match a.privParse with
    | none => .error .badPriv
    | some priv =>
      let payload := a.expiry ++ colonB :: a.company ++ colonB :: a.email
        ++ colonB :: reservedField
      let sig := pssSign priv (sha256M payload)
      let sigB64 := b64encode sig
      let token := payload ++ colonB :: sigB64
      .ok (b64encode token)

/-! ## Fixed archive entry names -/

/-- The fixed wrapped-key entry name. -/
def wrappedKeyName : BStr := bs "wrapped_key.bin"

/-- The fixed manifest entry name. -/
def manifestName : BStr := bs "manifest.json"

/-- The fixed embedded vendor-public-key entry name. -/
def vendorPubName : BStr := bs "vendor_public.pem"

/-- The fixed archive file name. -/
def zipName : BStr := bs "encrypted_files.zip"

/-- The manifest bytes written by the packager in license mode. -/
def manifestContent : BStr :=
  bs "\x7b\n  \"license_required\": true,\n  \"vendor_public_key\": \"vendor_public.pem\"\n\x7d\n"

/-- The substring the unpacker greps the manifest for to detect the flag. -/
def licFlagPattern : BStr := bs "\"license_required\": true"

/-! ## The packager command (`main` embedded in the repository Dockerfile) -/

/-- Fatal outcomes of the packager. -/
inductive PackErr where
  | badPubKey       -- "Failed to read public key"
  | licenseNoVendor -- "-license requires -vendor-pub <vendor_public.pem>"
  | vendorReadErr   -- "Reading vendor public key failed"
  deriving DecidableEq

/-- Arguments of the packager, with file reads already resolved:
`pubParse` is the result of `readRSAPublicKey` on `-pub` (`none` =
unreadable or invalid), `vendorPubContent` the read of the `-vendor-pub`
file, `keyId`/`ts` the freshly generated fernet key and the encryption
instant. -/
structure PackArgs where
  inDir : Dir
  pubParse : Option Nat
  licenseMode : Bool
  vendorPubArg : BStr
  vendorPubContent : Option Bytes
  makeZip : Bool
  cleanup : Bool
  keyId : Nat
  ts : Int

/-- Result of a packager run: the `WriteFile` calls into the output
directory in order, the final names present in the output directory, the
entries of `encrypted_files.zip` when built, and the fatal error if any. -/
structure PackOut where
  writes : Dir
  dirNames : List BStr
  zip : Option Dir
  err : Option PackErr
  deriving DecidableEq

/-- A file name the packager's cleanup pass removes (generated artifacts). -/
def isGeneratedName (n : BStr) : Bool :=
  hasSfx n encSuffix || n == wrappedKeyName || n == manifestName || n == vendorPubName

/-- Function `zipOutputs` (Dockerfile lines 135–172): archive every file of the
output-directory listing under its own name.  The zip file has itself just
been created in that directory when the listing is taken; its self-entry
carries only the bytes buffered so far, which no consumer ever reads —
modelled as empty text. -/
def zipOutputs (outFiles : Dir) : Dir := outFiles ++ [(zipName, .txt [])]

/-- Tail of the packager `main` (Dockerfile lines 247–274): optionally zip
the output directory, then optionally remove the staged artifacts, keeping
the zip. -/
def packFinish (a : PackArgs) (w : Dir) : PackOut :=
  if a.makeZip then
    let names := w.map (·.1) ++ [zipName]
    if a.cleanup then
      ⟨w, names.filter (fun n => n == zipName || !isGeneratedName n),
        some (zipOutputs w), none⟩
    else ⟨w, names, some (zipOutputs w), none⟩
  else ⟨w, w.map (·.1), none, none⟩

/-- The packager `main` (Dockerfile lines 174–275): read the recipient
public key (fatal before anything is written), encrypt every input file,
write the wrapped key, then — only then — handle license mode (vendor-path
check, manifest and vendor-key writes), then zip and clean up. -/
def packagerMain (a : PackArgs) : PackOut :=
  match a.pubParse with
  | none => ⟨[], [], none, some .badPubKey⟩
  | some pub =>
    let encd := encryptFilesWithFernet a.keyId a.ts a.inDir
    let w1 := encd ++ [(wrappedKeyName, wrapFernetKey pub a.keyId)]
    if a.licenseMode then
      if trimSpace a.vendorPubArg = [] then ⟨w1, w1.map (·.1), none, some .licenseNoVendor⟩
      else
        let w2 := w1 ++ [(manifestName, .txt manifestContent)]
        match a.vendorPubContent with
        | none => ⟨w2, w2.map (·.1), none, some .vendorReadErr⟩
        | some vp => packFinish a (w2 ++ [(vendorPubName, vp)])
    else packFinish a w1

/-! ## The unpack command (`cmd/unpack/main.go` `main`, lines 131–208) -/

/-- Observable actions of an unpack run, in order. -/
inductive Act where
  | mkdirWork   -- os.MkdirAll on the work directory
  | unzipDone   -- successful extraction into the work directory
  | licNoToken  -- "license required: provide -license-token"
  | licNoVendor -- "license required: vendor public key not found"
  | licFail     -- verifyAndEnforceLicense returned an error
  | licOk       -- verifyAndEnforceLicense succeeded
  | readWrapped -- os.ReadFile on wrapped_key.bin
  | readPriv    -- readRSAPrivateKey on -priv
  | unwrapKey   -- unwrapFernetKey attempt
  | decryptRun  -- decryptDirWithFernet over the work directory
  | removeWork  -- os.RemoveAll on the work directory
  deriving DecidableEq

/-- Fatal outcomes of an unpack run. -/
inductive UnpackErr where
  | unzipErr
  | licRequiredNoToken
  | licNoVendorKey
  | lic : LicErr → UnpackErr
  | wrappedReadErr
  | privReadErr
  | unwrapErr
  | decryptErr : BStr → UnpackErr
  deriving DecidableEq

/-- Arguments of the unpack command, with file reads resolved: `zip` is the
archive's entry list (what extraction puts into the work directory),
`privParse` the result of `readRSAPrivateKey` on `-priv`, `fs` the external
file system for the `-license-token` and `-vendor-pub` paths, `now` the
clock (or `FAKE_NOW` override) in seconds.  An omitted path flag is the
empty string `[]`. -/
structure UnpackArgs where
  zip : Dir
  privParse : Option Nat
  licenseTokenArg : BStr
  vendorPubArg : BStr
  fs : Dir
  now : Int

/-- Manifest flag detection (`main` lines 158–163): the work directory's
`manifest.json`, when present, read and grepped for the literal
`"license_required": true`. -/
def requireLicenseB (work : Dir) : Bool :=
  match lookupD work manifestName with
  | some (.txt s) => containsSub licFlagPattern s
  | _ => false

/-- Manifest vendor-key reference detection (`main` lines 164–166). -/
def manifestHasVendorB (work : Dir) : Bool :=
  match lookupD work manifestName with
  | some (.txt s) => containsSub vendorPubName s
  | _ => false

/-- Whether a vendor-public-key path is available: the `-vendor-pub` flag,
or — when that flag is empty — the manifest-referenced copy inside the
archive. -/
def vendorPathSetB (a : UnpackArgs) : Bool :=
  !(a.vendorPubArg == []) || manifestHasVendorB a.zip

/-- Whether the vendor key is read from the work directory (flag empty,
manifest references the embedded copy). -/
def useWorkVendorB (a : UnpackArgs) : Bool :=
  (a.vendorPubArg == []) && manifestHasVendorB a.zip

/-- Steps of `main` from the wrapped-key read onward (lines 185–208):
read `wrapped_key.bin`, read the private key, unwrap the fernet key,
decrypt the work directory into the output directory.  Also the tail of the
library `DecryptZip`.  Returns the action trace (appended to `tr`) and the
result. -/
def unpackTail (work : Dir) (privParse : Option Nat) (now : Int)
    (tr : List Act) : List Act × Except UnpackErr Dir :=
  match lookupD work wrappedKeyName with
  | none => (tr ++ [Act.readWrapped], .error .wrappedReadErr)
  | some wrapped =>
    match privParse with
    | none => (tr ++ [Act.readWrapped, Act.readPriv], .error .privReadErr)
    | some priv =>
      match unwrapFernetKey priv wrapped with
      | none => (tr ++ [Act.readWrapped, Act.readPriv, Act.unwrapKey],
                 .error .unwrapErr)
      | some k =>
        let r := decryptDirWithFernet k now work
        (tr ++ [Act.readWrapped, Act.readPriv, Act.unwrapKey, Act.decryptRun],
         match r.2 with
         | some n => .error (.decryptErr n)
         | none => .ok r.1)

/-- The unpack `main` (`cmd/unpack/main.go` lines 131–208): create the work
directory, extract the archive into it, detect the manifest's licensing
flag and embedded vendor key, run the license gate when any signal is
present (token-path check first, then vendor-key availability, then
verification), then read and unwrap the wrapped key and decrypt.  The work
directory is never removed. -/
def unpackMain (a : UnpackArgs) : List Act × Except UnpackErr Dir :=
  let tr := [Act.mkdirWork, Act.unzipDone]
  if requireLicenseB a.zip || !(a.licenseTokenArg == []) || vendorPathSetB a then
    if a.licenseTokenArg == [] then
      (tr ++ [Act.licNoToken], .error .licRequiredNoToken)
    else if !(vendorPathSetB a) then
      (tr ++ [Act.licNoVendor], .error .licNoVendorKey)
    else
      let vendorFile? := if useWorkVendorB a then lookupD a.zip vendorPubName
                         else lookupD a.fs a.vendorPubArg
      let tokenFile? := lookupD a.fs a.licenseTokenArg
      match verifyAndEnforceLicense vendorFile? tokenFile? a.now with
      | .error e => (tr ++ [Act.licFail], .error (.lic e))
      | .ok _ => unpackTail a.zip a.privParse a.now (tr ++ [Act.licOk])
  else unpackTail a.zip a.privParse a.now tr

/-- The spec's three licensing signals: the extracted manifest declares the
flag, a license-token path was supplied, or a vendor-public-key path was
supplied or is resolvable from the archive. -/
def licenseSignals (a : UnpackArgs) : Prop :=
  (∃ s, lookupD a.zip manifestName = some (.txt s)
    ∧ containsSub licFlagPattern s = true)
  ∨ a.licenseTokenArg ≠ []
  ∨ a.vendorPubArg ≠ []
  ∨ (∃ s, lookupD a.zip manifestName = some (.txt s)
    ∧ containsSub vendorPubName s = true)

/-! ## The integration library `SecurePackager.DecryptZip` (part_002) -/

/-- Arguments of `DecryptZip`, reads resolved as for the command:
`unzipOk`/`work` model `sp.unzip` (failure, or the extraction result). -/
structure DZArgs where
  unzipOk : Bool
  work : Dir
  licenseTokenPath : BStr
  privParse : Option Nat
  now : Int

/-- Method `SecurePackager.DecryptZip` (part_002 lines 199–257): create the work
directory, register the deferred `os.RemoveAll(workDir)`, extract, check
the manifest's license requirement, gate on the token path (the library's
`verifyAndEnforceLicense` is a stub that always succeeds), then the same
wrapped-key/unwrap/decrypt tail as the command.  The deferred removal runs
on every exit path after the work directory was created. -/
def DecryptZip (a : DZArgs) : List Act × Except UnpackErr Dir :=
  let body : List Act × Except UnpackErr Dir :=
    if a.unzipOk = false then ([], .error .unzipErr)
    else
      let tr := [Act.unzipDone]
      if requireLicenseB a.work then
        if a.licenseTokenPath == [] then
          (tr ++ [Act.licNoToken], .error .licRequiredNoToken)
        else unpackTail a.work a.privParse a.now (tr ++ [Act.licOk])
      else unpackTail a.work a.privParse a.now tr
  (Act.mkdirWork :: body.1 ++ [Act.removeWork], body.2)

/-! ## Path handling for extraction (`filepath.Clean`, `filepath.Join`,
`unzip`) — forward-slash separator as on the target platform -/

/-- The path separator byte `'/'`. -/
def sepB : B := byt 47

/-- The dot byte `'.'`. -/
def dotB : B := byt 46

/-- The `".."` path component. -/
def dd : BStr := [dotB, dotB]

/-- The `"."` path component. -/
def dot1 : BStr := [dotB]

/-- Whether a path is rooted (absolute): starts with the separator. -/
def rootedB (s : BStr) : Bool :=
  match s with
  | [] => false
  | c :: _ => c == sepB

/-- Split a byte string into `sep`-separated pieces (never empty; empty
input gives one empty piece). -/
def splitB (sep : B) : BStr → List BStr
  | [] => [[]]
  | c :: rest =>
    if c == sep then [] :: splitB sep rest
    else
      match splitB sep rest with
      | [] => [[c]]
      | p :: ps => (c :: p) :: ps

/-- Join path components with the separator. -/
def joinComps : List BStr → BStr
  | [] => []
  | [p] => p
  | p :: ps => p ++ sepB :: joinComps ps

/-- The component loop of Go `path.Clean`: skip empty and `"."` components;
on `".."` pop the previous component, keeping a leading `".."` run in a
relative path and dropping `".."` at the root of a rooted one.  `acc` is
the processed stack, most recent first. -/
def cleanLoop (rooted : Bool) : List BStr → List BStr → List BStr
  | acc, [] => acc.reverse
  | acc, c :: rest =>
    if c = [] ∨ c = dot1 then cleanLoop rooted acc rest
    else if c = dd then
      match acc with
      | [] => if rooted then cleanLoop rooted [] rest
              else cleanLoop rooted [dd] rest
      | a :: as => if a = dd then cleanLoop rooted (dd :: a :: as) rest
                   else cleanLoop rooted as rest
    else cleanLoop rooted (c :: acc) rest

/-- Cleaned component list of a path. -/
def cleanParts (s : BStr) : List BStr :=
  cleanLoop (rootedB s) [] (splitB sepB s)

/-- Go `filepath.Clean` for slash-separated paths: the cleaned components
re-joined, `"/"`-prefixed when rooted, `"."` (or `"/"`) when nothing is
left. -/
def cleanPath (s : BStr) : BStr :=
  let ps := cleanParts s
  if ps = [] then (if rootedB s then [sepB] else dot1)
  else (if rootedB s then sepB :: joinComps ps else joinComps ps)

/-- Go `filepath.Join(dest, name)`: empty elements are skipped, the joined
string is cleaned; all-empty input stays empty. -/
def joinPath (dest name : BStr) : BStr :=
  if dest = [] then (if name = [] then [] else cleanPath name)
  else if name = [] then cleanPath dest
  else cleanPath (dest ++ sepB :: name)

/-- Go `filepath.IsAbs` on slash paths. -/
def isAbsPath (s : BStr) : Bool := rootedB s

/-- An archive entry as seen by `unzip`. -/
structure ZipEntry where
  name : BStr
  isDir : Bool
  content : BStr
  deriving DecidableEq

/-- Function `unzip` (`cmd/unpack/main.go` lines 47–85): for each entry,
`fpath := filepath.Join(dest, f.Name)`; abort with an "illegal file path"
error unless `fpath` has the string prefix `filepath.Clean(dest) + "/"`;
directory entries only create directories; file entries are written at
`fpath`.  Returns the file writes performed (path, content) in order and
the offending path when extraction aborts. -/
def unzip (dest : BStr) : List ZipEntry → List (BStr × BStr) × Option BStr
  | [] => ([], none)
  | e :: rest =>
    let fpath := joinPath dest e.name
    if hasPfx (cleanPath dest ++ [sepB]) fpath then
      if e.isDir then unzip dest rest
      else
        let r := unzip dest rest
        ((fpath, e.content) :: r.1, r.2)
    else ([], some fpath)

end SecPack

namespace SecPack

/-! ### Helper lemmas on path splitting and cleaning -/

/-- Splitting never yields an empty piece list. -/
theorem splitB_ne_nil (sep : B) : ∀ s : BStr, splitB sep s ≠ [] := by
  intro s
  induction s with
  | nil => simp [splitB]
  | cons c rest ih =>
    simp only [splitB]
    split
    · simp
    · rcases h : splitB sep rest with _ | ⟨p, ps⟩
      · exact absurd h ih
      · simp

/-- Splitting distributes over a separator occurrence. -/
theorem splitB_append (sep : B) : ∀ a b : BStr,
    splitB sep (a ++ sep :: b) = splitB sep a ++ splitB sep b
  | [], b => by simp [splitB]
  | c :: a, b => by
    by_cases hc : (c == sep) = true
    · simp only [List.cons_append, splitB, hc, if_true, List.append_eq,
        splitB_append sep a b]
    · simp only [Bool.not_eq_true] at hc
      rcases ha : splitB sep a with _ | ⟨p, ps⟩
      · exact absurd ha (splitB_ne_nil sep a)
      · simp only [List.cons_append, splitB, hc, Bool.false_eq_true, if_false,
          List.append_eq, splitB_append sep a b, ha, List.cons_append]

/-- A separator-free string is a single piece. -/
theorem splitB_sep_free (sep : B) : ∀ p : BStr, sep ∉ p → splitB sep p = [p]
  | [], _ => rfl
  | c :: p, h => by
    simp only [List.mem_cons, not_or] at h
    have hc : (c == sep) = false :=
      beq_eq_false_iff_ne.mpr (fun hh => h.1 hh.symm)
    simp only [splitB, hc, Bool.false_eq_true, if_false,
      splitB_sep_free sep p h.2]

/-- Every piece of a split is separator-free. -/
theorem splitB_pieces (sep : B) : ∀ (s : BStr) (p : BStr),
    p ∈ splitB sep s → sep ∉ p := by
  intro s
  induction s with
  | nil =>
    intro p hp
    simp only [splitB, List.mem_singleton] at hp
    subst hp
    simp
  | cons c rest ih =>
    intro p hp
    simp only [splitB] at hp
    by_cases hc : (c == sep) = true
    · rw [if_pos hc] at hp
      rcases List.mem_cons.mp hp with rfl | hp
      · simp
      · exact ih p hp
    · rw [if_neg hc] at hp
      rcases hq : splitB sep rest with _ | ⟨q, qs⟩
      · exact absurd hq (splitB_ne_nil sep rest)
      · rw [hq] at hp
        rcases List.mem_cons.mp hp with rfl | hp
        · intro hmem
          rcases List.mem_cons.mp hmem with rfl | hmem
          · simp at hc
          · exact ih q (by rw [hq]; simp) hmem
        · exact ih p (by rw [hq]; simp [hp])

/-- A true Boolean prefix test yields a decomposition. -/
theorem hasPfx_exists : ∀ q s : BStr, hasPfx q s = true → ∃ t, s = q ++ t
  | [], s, _ => ⟨s, rfl⟩
  | c :: q, [], h => by simp [hasPfx] at h
  | c :: q, d :: s, h => by
    simp only [hasPfx, Bool.and_eq_true, beq_iff_eq] at h
    obtain ⟨rfl, h2⟩ := h
    obtain ⟨t, rfl⟩ := hasPfx_exists q s h2
    exact ⟨t, rfl⟩

/-- No prefix test of a nonempty pattern succeeds on the empty string. -/
theorem hasPfx_nil (q : BStr) (hq : q ≠ []) : hasPfx q [] = false := by
  rcases q with _ | ⟨c, q⟩
  · exact absurd rfl hq
  · rfl

/-- Unfolding: the loop on an exhausted input. -/
theorem cleanLoop_nil (r : Bool) (acc : List BStr) :
    cleanLoop r acc [] = acc.reverse := by
  simp [cleanLoop]

/-- Unfolding: empty and `"."` components are skipped. -/
theorem cleanLoop_skip (r : Bool) (acc l : List BStr) (c : BStr)
    (h : c = [] ∨ c = dot1) :
    cleanLoop r acc (c :: l) = cleanLoop r acc l := by
  simp only [cleanLoop]
  rw [if_pos h]

/-- Unfolding: `".."` on an empty stack. -/
theorem cleanLoop_dd_nilacc (r : Bool) (l : List BStr) :
    cleanLoop r [] (dd :: l)
      = if r = true then cleanLoop r [] l else cleanLoop r [dd] l := by
  simp [cleanLoop]
  exact fun h => absurd h (by decide)

/-- Unfolding: `".."` over a `".."` stack top is pushed. -/
theorem cleanLoop_dd_ddacc (r : Bool) (l : List BStr) (a : BStr)
    (as : List BStr) (h : a = dd) :
    cleanLoop r (a :: as) (dd :: l) = cleanLoop r (dd :: a :: as) l := by
  simp [cleanLoop, h]
  exact fun h => absurd h (by decide)

/-- Unfolding: `".."` pops a normal stack top. -/
theorem cleanLoop_dd_pop (r : Bool) (l : List BStr) (a : BStr)
    (as : List BStr) (h : ¬a = dd) :
    cleanLoop r (a :: as) (dd :: l) = cleanLoop r as l := by
  simp [cleanLoop, h]
  exact fun h => absurd h (by decide)

/-- Unfolding: a normal component is pushed. -/
theorem cleanLoop_push (r : Bool) (acc l : List BStr) (c : BStr)
    (h1 : ¬(c = [] ∨ c = dot1)) (h2 : ¬c = dd) :
    cleanLoop r acc (c :: l) = cleanLoop r (c :: acc) l := by
  simp only [not_or] at h1
  simp [cleanLoop, h1.1, h1.2, h2]

/-- Invariant of the `path.Clean` component loop: starting from a stack of
good components over `".."`s (none when rooted), the result is a leading
run of `".."`s (none when rooted) followed by plain components — nonempty,
not dots, separator-free. -/
theorem cleanLoop_inv (r : Bool) : ∀ (l acc : List BStr),
    (∀ p ∈ l, sepB ∉ p) →
    (∃ ys k, acc = ys ++ List.replicate k dd ∧ dd ∉ ys ∧ (r = true → k = 0)
      ∧ ∀ y ∈ ys, y ≠ [] ∧ y ≠ dot1 ∧ sepB ∉ y) →
    ∃ k ys, cleanLoop r acc l = List.replicate k dd ++ ys ∧ dd ∉ ys
      ∧ (r = true → k = 0) ∧ ∀ y ∈ ys, y ≠ [] ∧ y ≠ dot1 ∧ sepB ∉ y := by
  intro l
  induction l with
  | nil =>
    rintro acc _ ⟨ys, k, rfl, hdd, hrk, hys⟩
    refine ⟨k, ys.reverse, ?_, by simpa using hdd, hrk, ?_⟩
    · simp [cleanLoop, List.reverse_append, List.reverse_replicate]
    · intro y hy
      exact hys y (by simpa using hy)
  | cons c l ih =>
    rintro acc hl ⟨ys, k, rfl, hdd, hrk, hys⟩
    have hl' : ∀ p ∈ l, sepB ∉ p := fun p hp => hl p (by simp [hp])
    by_cases h1 : c = [] ∨ c = dot1
    · rw [cleanLoop_skip r _ l c h1]
      exact ih _ hl' ⟨ys, k, rfl, hdd, hrk, hys⟩
    · by_cases h2 : c = dd
      · subst h2
        rcases hys0 : ys ++ List.replicate k dd with _ | ⟨a, as⟩
        · rw [cleanLoop_dd_nilacc]
          by_cases hr : r = true
          · rw [if_pos hr]
            exact ih _ hl' ⟨[], 0, rfl, by simp, fun _ => rfl, by simp⟩
          · rw [if_neg hr]
            exact ih _ hl' ⟨[], 1, rfl, by simp,
              fun h => absurd h hr, by simp⟩
        · by_cases h3 : a = dd
          · rw [cleanLoop_dd_ddacc r l a as h3]
            subst h3
            have hys_nil : ys = [] := by
              rcases ys with _ | ⟨y, ys'⟩
              · rfl
              · exfalso
                apply hdd
                have hy : y = dd := by
                  simpa using congrArg List.headI hys0
                rw [hy]
                simp
            subst hys_nil
            simp only [List.nil_append] at hys0
            refine ih _ hl' ⟨[], k + 1, ?_, by simp, fun hr => ?_, by simp⟩
            · simp [List.replicate_succ, hys0]
            · have hk := hrk hr
              rw [hk] at hys0
              exact absurd hys0 (by simp)
          · rw [cleanLoop_dd_pop r l a as h3]
            rcases ys with _ | ⟨y, ys'⟩
            · exfalso
              simp only [List.nil_append] at hys0
              rcases k with _ | k'
              · simp at hys0
              · apply h3
                simpa [List.replicate_succ] using (congrArg List.headI hys0).symm
            · have hy : y = a := by
                simpa using congrArg List.headI hys0
              have has : ys' ++ List.replicate k dd = as := by
                simpa using congrArg List.tail hys0
              subst hy
              refine ih _ hl' ⟨ys', k, has.symm, ?_, hrk, ?_⟩
              · intro hmem
                exact hdd (by simp [hmem])
              · intro z hz
                exact hys z (by simp [hz])
      · rw [cleanLoop_push r _ l c h1 h2]
        simp only [not_or] at h1
        refine ih _ hl' ⟨c :: ys, k, by simp, ?_, hrk, ?_⟩
        · intro hmem
          rcases List.mem_cons.mp hmem with heq | hmem
          · exact h2 heq.symm
          · exact hdd hmem
        · intro y hy
          rcases List.mem_cons.mp hy with heq | hy
          · rw [heq]
            exact ⟨h1.1, h1.2, hl c (by simp)⟩
          · exact hys y hy

/-- Shape of cleaned components: a leading `".."` run (empty when rooted)
followed by plain components. -/
theorem cleanParts_shape (s : BStr) :
    ∃ k ys, cleanParts s = List.replicate k dd ++ ys ∧ dd ∉ ys
      ∧ (rootedB s = true → k = 0)
      ∧ ∀ y ∈ ys, y ≠ [] ∧ y ≠ dot1 ∧ sepB ∉ y :=
  cleanLoop_inv (rootedB s) (splitB sepB s) []
    (fun p hp => splitB_pieces sepB s p hp)
    ⟨[], 0, rfl, by simp, fun _ => rfl, by simp⟩

/-- Every cleaned component is nonempty, not `"."`, and separator-free. -/
theorem cleanParts_elems (s : BStr) :
    ∀ p ∈ cleanParts s, p ≠ [] ∧ p ≠ dot1 ∧ sepB ∉ p := by
  obtain ⟨k, ys, heq, _, _, hys⟩ := cleanParts_shape s
  intro p hp
  rw [heq] at hp
  rcases List.mem_append.mp hp with hp | hp
  · have := List.eq_of_mem_replicate hp
    subst this
    exact ⟨by decide, by decide, by decide⟩
  · exact hys p hp

/-- Splitting inverts joining on separator-free components. -/
theorem splitB_joinComps : ∀ ps : List BStr, ps ≠ [] →
    (∀ p ∈ ps, sepB ∉ p) → splitB sepB (joinComps ps) = ps
  | [], h, _ => absurd rfl h
  | [p], _, h => splitB_sep_free sepB p (h p (by simp))
  | p :: q :: ps, _, h => by
    show splitB sepB (p ++ sepB :: joinComps (q :: ps)) = _
    rw [splitB_append, splitB_sep_free sepB p (h p (by simp)),
      splitB_joinComps (q :: ps) (by simp) (fun x hx => h x (by simp [hx]))]
    rfl

/-- A cleaned path is never the empty string. -/
theorem cleanPath_ne_nil (s : BStr) : cleanPath s ≠ [] := by
  unfold cleanPath
  rcases h : cleanParts s with _ | ⟨p, ps⟩
  · cases rootedB s <;> simp [dot1]
  · have hp := (cleanParts_elems s p (by rw [h]; simp)).1
    cases rootedB s
    · simp only [if_neg (by simp : ¬(p :: ps = [])), if_neg (Bool.false_ne_true)]
      rcases ps with _ | ⟨q, ps⟩
      · exact hp
      · simp [joinComps]
    · simp

/-- Only the empty string splits into a single empty piece. -/
theorem splitB_single_nil : ∀ s : BStr, splitB sepB s = [[]] → s = []
  | [], _ => rfl
  | c :: rest, h => by
    exfalso
    simp only [splitB] at h
    by_cases hc : (c == sepB) = true
    · rw [if_pos hc] at h
      have : splitB sepB rest = [] := by
        injection h
      exact splitB_ne_nil sepB rest this
    · rw [if_neg hc] at h
      rcases hq : splitB sepB rest with _ | ⟨q, qs⟩
      · exact splitB_ne_nil sepB rest hq
      · rw [hq] at h
        injection h with h1 h2
        exact List.noConfusion h1

/-- The components of a cleaned path: the cleaned component list, with a
leading empty piece when rooted, or the degenerate `"."`/`"/"` forms. -/
theorem splitB_cleanPath (s : BStr) :
    (rootedB s = false ∧ splitB sepB (cleanPath s) = cleanParts s)
    ∨ (rootedB s = true ∧ splitB sepB (cleanPath s) = [] :: cleanParts s)
    ∨ (cleanParts s = [] ∧ (splitB sepB (cleanPath s) = [dot1]
        ∨ splitB sepB (cleanPath s) = [[], []])) := by
  unfold cleanPath
  rcases h : cleanParts s with _ | ⟨p, ps⟩
  · right; right
    refine ⟨rfl, ?_⟩
    cases rootedB s
    · left; decide
    · right; decide
  · have hfree : ∀ x ∈ p :: ps, sepB ∉ x := by
      intro x hx
      exact (cleanParts_elems s x (by rw [h]; exact hx)).2.2
    cases hr : rootedB s
    · left
      refine ⟨rfl, ?_⟩
      simp only [if_neg (by simp : ¬(p :: ps = [])), if_neg (Bool.false_ne_true)]
      exact splitB_joinComps (p :: ps) (by simp) hfree
    · right; left
      refine ⟨rfl, ?_⟩
      simp only [if_neg (by simp : ¬(p :: ps = [])), if_pos rfl]
      show splitB sepB (sepB :: joinComps (p :: ps)) = _
      simp only [splitB, beq_self_eq_true, if_true]
      rw [splitB_joinComps (p :: ps) (by simp) hfree]

/-- If `u ++ v` is a `".."` run followed by `".."`-free components and `v`
still contains `".."`, then `u` consists solely of `".."`s. -/
theorem mem_all_dd : ∀ (u v ys : List BStr) (k : Nat),
    u ++ v = List.replicate k dd ++ ys → dd ∉ ys → dd ∈ v → ∀ x ∈ u, x = dd
  | [], _, _, _, _, _, _ => by simp
  | a :: u, v, ys, k, heq, hys, hv => by
    cases k with
    | zero =>
      exfalso
      apply hys
      simp only [List.replicate, List.nil_append] at heq
      rw [← heq]
      simp [hv]
    | succ k' =>
      simp only [List.replicate_succ, List.cons_append] at heq
      injection heq with h1 h2
      intro x hx
      rcases List.mem_cons.mp hx with rfl | hx
      · exact h1
      · exact mem_all_dd u v ys k' h2 hys hv x hx

/-- Every file write of `unzip` passed the prefix check and is a join of
the destination with the entry name. -/
theorem unzip_writes (dest : BStr) : ∀ (es : List ZipEntry) (p c : BStr),
    (p, c) ∈ (unzip dest es).1 →
    hasPfx (cleanPath dest ++ [sepB]) p = true ∧ ∃ name, p = joinPath dest name
  | [], p, c, h => by simp [unzip] at h
  | e :: es, p, c, h => by
    simp only [unzip] at h
    split at h
    case isTrue hck =>
      split at h
      · exact unzip_writes dest es p c h
      · rcases List.mem_cons.mp h with heq | h
        · have hp : p = joinPath dest e.name := congrArg Prod.fst heq
          rw [hp]
          exact ⟨hck, e.name, rfl⟩
        · exact unzip_writes dest es p c h
    case isFalse => simp at h

/-- A cleaned path that extends `Clean(dest) + "/"` decomposes, at the
component level, into the cleaned destination followed by a nonempty run of
plain components: no `".."`, no `"."`, no empty piece — it lies strictly
inside the destination directory. -/
theorem cleaned_prefix_decomp (dest X : BStr)
    (hdd : dd ∉ cleanParts dest)
    (hpfx : hasPfx (cleanPath dest ++ [sepB]) (cleanPath X) = true) :
    ∃ rest, splitB sepB (cleanPath X) = splitB sepB (cleanPath dest) ++ rest
      ∧ rest ≠ [] ∧ dd ∉ rest ∧ dot1 ∉ rest ∧ [] ∉ rest := by
  obtain ⟨t, ht⟩ := hasPfx_exists _ _ hpfx
  have ht' : cleanPath X = cleanPath dest ++ sepB :: t := by
    rw [ht, List.append_assoc]
    rfl
  have hsplit : splitB sepB (cleanPath X)
      = splitB sepB (cleanPath dest) ++ splitB sepB t := by
    rw [ht', splitB_append]
  obtain ⟨kX, ysX, hshape, hddX, hrkX, _⟩ := cleanParts_shape X
  suffices hgood : ∀ y ∈ splitB sepB t, y ≠ dd ∧ y ≠ dot1 ∧ y ≠ [] by
    refine ⟨splitB sepB t, hsplit, splitB_ne_nil _ t, ?_, ?_, ?_⟩
    · intro hm
      exact (hgood dd hm).1 rfl
    · intro hm
      exact (hgood dot1 hm).2.1 rfl
    · intro hm
      exact (hgood [] hm).2.2 rfl
  rcases splitB_cleanPath X with ⟨_, hsX⟩ | ⟨hrX, hsX⟩ | ⟨_, hdeg⟩
  · -- X cleans to a relative path
    have heq2 : splitB sepB (cleanPath dest) ++ splitB sepB t = cleanParts X := by
      rw [← hsplit]
      exact hsX
    intro y hy
    have hyX : y ∈ cleanParts X := by
      rw [← heq2]
      exact List.mem_append_right _ hy
    have hprops := cleanParts_elems X y hyX
    refine ⟨?_, hprops.2.1, hprops.1⟩
    intro hydd
    subst hydd
    rw [hshape] at heq2
    have hall := mem_all_dd _ _ ysX kX heq2 hddX hy
    have hhd : dd ∈ splitB sepB (cleanPath dest) := by
      rcases hD : splitB sepB (cleanPath dest) with _ | ⟨u, us⟩
      · exact absurd hD (splitB_ne_nil _ _)
      · have hu := hall u (by rw [hD]; simp)
        exact List.mem_cons.mpr (Or.inl hu.symm)
    rcases splitB_cleanPath dest with ⟨_, hsD⟩ | ⟨_, hsD⟩ | ⟨_, hdegD⟩
    · rw [hsD] at hhd
      exact hdd hhd
    · rw [hsD] at hhd
      rcases List.mem_cons.mp hhd with h' | h'
      · exact absurd h' (by decide)
      · exact hdd h'
    · rcases hdegD with h' | h' <;> rw [h'] at hhd <;> revert hhd <;> decide
  · -- X cleans to a rooted path: no ".." at all among its components
    have hk0 := hrkX hrX
    rw [hk0] at hshape
    simp only [List.replicate, List.nil_append] at hshape
    have heq2 : splitB sepB (cleanPath dest) ++ splitB sepB t
        = [] :: cleanParts X := by
      rw [← hsplit]
      exact hsX
    rcases hD : splitB sepB (cleanPath dest) with _ | ⟨u, us⟩
    · exact absurd hD (splitB_ne_nil _ _)
    · rw [hD, List.cons_append] at heq2
      injection heq2 with hu hus
      intro y hy
      have hyX : y ∈ cleanParts X := by
        rw [← hus]
        exact List.mem_append_right _ hy
      have hprops := cleanParts_elems X y hyX
      refine ⟨?_, hprops.2.1, hprops.1⟩
      intro hydd
      subst hydd
      rw [hshape] at hyX
      exact hddX hyX
  · -- degenerate cleaned forms cannot extend a nonempty prefix
    exfalso
    have hlenD : 1 ≤ (splitB sepB (cleanPath dest)).length :=
      List.length_pos.mpr (splitB_ne_nil _ _)
    have hlenT : 1 ≤ (splitB sepB t).length :=
      List.length_pos.mpr (splitB_ne_nil _ _)
    rcases hdeg with hd1 | hd2
    · have := congrArg List.length (hsplit.symm.trans hd1)
      simp only [List.length_append, List.length_cons, List.length_singleton,
        List.length_nil] at this
      omega
    · rcases hD : splitB sepB (cleanPath dest) with _ | ⟨u, us⟩
      · exact splitB_ne_nil _ _ hD
      · have heq2 : (u :: us) ++ splitB sepB t = [[], []] := by
          rw [← hD, ← hsplit]
          exact hd2
        rw [List.cons_append] at heq2
        injection heq2 with hu hus
        rcases us with _ | ⟨v, us'⟩
        · have htT : splitB sepB t = [[]] := by simpa using hus
          have hDnil : cleanPath dest = [] := by
            apply splitB_single_nil
            rw [hD, hu]
          exact cleanPath_ne_nil dest hDnil
        · simp only [List.cons_append] at hus
          injection hus with hv hus'
          have : splitB sepB t = [] := List.append_eq_nil.mp hus' |>.2
          exact splitB_ne_nil _ _ this

/-- Join `filepath.Join` yields the empty string (both arguments empty) or a
cleaned path. -/
theorem joinPath_cases (dest name : BStr) :
    joinPath dest name = [] ∨ ∃ X, joinPath dest name = cleanPath X := by
  unfold joinPath
  by_cases h1 : dest = []
  · rw [if_pos h1]
    by_cases h2 : name = []
    · rw [if_pos h2]
      exact Or.inl rfl
    · rw [if_neg h2]
      exact Or.inr ⟨name, rfl⟩
  · rw [if_neg h1]
    by_cases h2 : name = []
    · rw [if_pos h2]
      exact Or.inr ⟨dest, rfl⟩
    · rw [if_neg h2]
      exact Or.inr ⟨dest ++ sepB :: name, rfl⟩

/-- C4 counterexample — an entry with the absolute name `/etc/passwd` is
not rejected by the extractor: `filepath.Join` neutralises the leading
slash, the prefix check passes, and the entry is written (inside the
destination) with no error. -/
theorem absolute_entry_not_rejected :
    isAbsPath (bs "/etc/passwd") = true
    ∧ unzip (bs "out") [⟨bs "/etc/passwd", false, bs "x"⟩]
      = ([(bs "out/etc/passwd", bs "x")], none) :=
  ⟨rfl, rfl⟩

/-- C4 (amended) — Every entry whose joined-and-cleaned target escapes the
destination working directory is rejected before any of its bytes are
written (extraction aborts there); absolute entry names are joined beneath
the destination rather than rejected; and, provided the destination's own
cleaned path contains no `".."` component, every file write of the
extraction lands strictly inside the destination directory: its components
are the cleaned destination's components followed by a nonempty run of
plain components. -/
theorem unzip_stays_inside (dest : BStr) (entries : List ZipEntry)
    (hdd : dd ∉ cleanParts dest) :
    ∀ p c, (p, c) ∈ (unzip dest entries).1 →
      ∃ rest, splitB sepB p = splitB sepB (cleanPath dest) ++ rest
        ∧ rest ≠ [] ∧ dd ∉ rest ∧ dot1 ∉ rest ∧ [] ∉ rest := by
  intro p c hp
  obtain ⟨hpfx, name, hname⟩ := unzip_writes dest entries p c hp
  rcases joinPath_cases dest name with hnil | ⟨X, hX⟩
  · rw [hname, hnil] at hpfx
    rw [hasPfx_nil _ (by simp)] at hpfx
    exact Bool.noConfusion hpfx
  · rw [hname, hX] at hpfx ⊢
    exact cleaned_prefix_decomp dest X hdd hpfx

/-- Witness for C4 (amended): a benign entry extracted under `out` lands
strictly inside it. -/
theorem unzip_stays_inside_witness :
    ∃ rest, splitB sepB (bs "out/a.txt")
        = splitB sepB (cleanPath (bs "out")) ++ rest
      ∧ rest ≠ [] ∧ dd ∉ rest ∧ dot1 ∉ rest ∧ [] ∉ rest :=
  unzip_stays_inside (bs "out") [⟨bs "a.txt", false, bs "x"⟩] (by decide)
    (bs "out/a.txt") (bs "x") (by decide)

/-! ### Helper lemmas on the base64url codec -/

/-- Decoding inverts the alphabet map on six-bit values. -/
theorem b64decChar_sextet_fin : ∀ n : Fin 64, b64decChar (sextetB n.val) = some n.val := by
  decide

/-- Decoding inverts the alphabet map on six-bit values (`Nat` form). -/
theorem b64decChar_sextet (n : Nat) (h : n < 64) : b64decChar (sextetB n) = some n :=
  b64decChar_sextet_fin ⟨n, h⟩

/-- Alphabet characters are never the padding byte. -/
theorem sextet_ne_pad_fin : ∀ n : Fin 64, (sextetB n.val == padB) = false := by
  decide

/-- Alphabet characters are never the padding byte (`Nat` form). -/
theorem sextet_ne_pad (n : Nat) (h : n < 64) : (sextetB n == padB) = false :=
  sextet_ne_pad_fin ⟨n, h⟩

/-- Rebuilding a byte from its own value is the identity. -/
theorem byt_val (a : B) : byt a.val = a := by
  apply Fin.ext
  simp [byt, Fin.ofNat]

/-- base64url decoding inverts encoding. -/
theorem b64_roundtrip : ∀ l : BStr, b64decode (b64encode l) = some l
  | [] => rfl
  | [a] => by
    have ha := a.isLt
    have h1 : a.val / 4 < 64 := by omega
    have h2 : a.val % 4 * 16 < 64 := by omega
    have e1 : a.val / 4 * 4 + a.val % 4 * 16 / 16 = a.val := by omega
    simp only [b64encode, b64decode, b64decChar_sextet _ h1, b64decChar_sextet _ h2,
      beq_self_eq_true, Bool.and_self, if_true, List.isEmpty_nil, e1, byt_val]
  | [a, b] => by
    have ha := a.isLt
    have hb := b.isLt
    have h1 : a.val / 4 < 64 := by omega
    have h2 : a.val % 4 * 16 + b.val / 16 < 64 := by omega
    have h3 : b.val % 16 * 4 < 64 := by omega
    have e1 : a.val / 4 * 4 + (a.val % 4 * 16 + b.val / 16) / 16 = a.val := by omega
    have e2 : (a.val % 4 * 16 + b.val / 16) % 16 * 16 + b.val % 16 * 4 / 4 = b.val := by
      omega
    simp only [b64encode, b64decode, b64decChar_sextet _ h1, b64decChar_sextet _ h2,
      b64decChar_sextet _ h3, sextet_ne_pad _ h3, beq_self_eq_true, Bool.false_and,
      Bool.and_true, if_false, if_true, List.isEmpty_nil, e1, e2, byt_val]
    all_goals simp
  | a :: b :: c :: rest => by
    have ha := a.isLt
    have hb := b.isLt
    have hc := c.isLt
    have h1 : a.val / 4 < 64 := by omega
    have h2 : a.val % 4 * 16 + b.val / 16 < 64 := by omega
    have h3 : b.val % 16 * 4 + c.val / 64 < 64 := by omega
    have h4 : c.val % 64 < 64 := by omega
    have e1 : a.val / 4 * 4 + (a.val % 4 * 16 + b.val / 16) / 16 = a.val := by omega
    have e2 : (a.val % 4 * 16 + b.val / 16) % 16 * 16
        + (b.val % 16 * 4 + c.val / 64) / 4 = b.val := by omega
    have e3 : (b.val % 16 * 4 + c.val / 64) % 4 * 64 + c.val % 64 = c.val := by omega
    have ih := b64_roundtrip rest
    simp only [b64encode, b64decode, b64decChar_sextet _ h1, b64decChar_sextet _ h2,
      b64decChar_sextet _ h3, b64decChar_sextet _ h4, sextet_ne_pad _ h3,
      sextet_ne_pad _ h4, Bool.and_false, Bool.false_and, if_false, ih, e1, e2, e3,
      byt_val]
    all_goals simp

/-- Alphabet characters are neither white space nor the colon. -/
theorem sextet_plain_fin :
    ∀ n : Fin 64, isSpaceB (sextetB n.val) = false ∧ sextetB n.val ≠ colonB := by
  decide

/-- Every byte of a base64url encoding is neither white space nor a colon. -/
theorem b64encode_chars : ∀ (l : BStr) (c : B), c ∈ b64encode l →
    isSpaceB c = false ∧ c ≠ colonB
  | [], c => by simp [b64encode]
  | [a], c => by
    have ha := a.isLt
    intro hc
    simp only [b64encode, List.mem_cons, List.mem_singleton, List.not_mem_nil,
      or_false] at hc
    rcases hc with rfl | rfl | rfl | rfl
    · exact sextet_plain_fin ⟨a.val / 4, by omega⟩
    · exact sextet_plain_fin ⟨a.val % 4 * 16, by omega⟩
    · exact (by decide)
    · exact (by decide)
  | [a, b], c => by
    have ha := a.isLt
    have hb := b.isLt
    intro hc
    simp only [b64encode, List.mem_cons, List.mem_singleton, List.not_mem_nil,
      or_false] at hc
    rcases hc with rfl | rfl | rfl | rfl
    · exact sextet_plain_fin ⟨a.val / 4, by omega⟩
    · exact sextet_plain_fin ⟨a.val % 4 * 16 + b.val / 16, by omega⟩
    · exact sextet_plain_fin ⟨b.val % 16 * 4, by omega⟩
    · exact (by decide)
  | a :: b :: d :: rest, c => by
    have ha := a.isLt
    have hb := b.isLt
    have hd := d.isLt
    intro hc
    simp only [b64encode, List.mem_cons] at hc
    rcases hc with rfl | rfl | rfl | rfl | hc
    · exact sextet_plain_fin ⟨a.val / 4, by omega⟩
    · exact sextet_plain_fin ⟨a.val % 4 * 16 + b.val / 16, by omega⟩
    · exact sextet_plain_fin ⟨b.val % 16 * 4 + d.val / 64, by omega⟩
    · exact sextet_plain_fin ⟨d.val % 64, by omega⟩
    · exact b64encode_chars rest c hc

/-- Lemma: `dropWhile` is the identity on a list none of whose elements satisfy the
predicate. -/
theorem dropWhile_id_of_none {p : B → Bool} :
    ∀ s : BStr, (∀ c ∈ s, p c = false) → s.dropWhile p = s
  | [], _ => rfl
  | c :: cs, h => by
    have := h c (by simp)
    simp [List.dropWhile_cons, this]

/-- Lemma: `strings.TrimSpace` is the identity on a string with no white space. -/
theorem trimSpace_id (s : BStr) (h : ∀ c ∈ s, isSpaceB c = false) :
    trimSpace s = s := by
  unfold trimSpace
  rw [dropWhile_id_of_none s h,
    dropWhile_id_of_none s.reverse (by intro c hc; exact h c (by simpa using hc)),
    List.reverse_reverse]

/-- Splitting at the first separator of `x ++ sep :: y` with `sep ∉ x`
recovers `(x, y)`. -/
theorem splitFirst_append (sep : B) : ∀ (x y : BStr), sep ∉ x →
    splitFirst sep (x ++ sep :: y) = some (x, y)
  | [], y, _ => by simp [splitFirst]
  | c :: cs, y, h => by
    simp only [List.mem_cons, not_or] at h
    obtain ⟨h1, h2⟩ := h
    have hcne : (c == sep) = false := beq_eq_false_iff_ne.mpr (fun hh => h1 hh.symm)
    simp only [List.cons_append, splitFirst, hcne, Bool.false_eq_true, if_false,
      List.append_eq]
    rw [splitFirst_append sep cs y h2]

/-- Lemma: `SplitN(·, ":", 5)` on a well-formed five-field payload yields exactly
the five fields (the last may itself contain separators). -/
theorem splitNB_five (e c m kf s : BStr)
    (he : colonB ∉ e) (hc : colonB ∉ c) (hm : colonB ∉ m) (hk : colonB ∉ kf) :
    splitNB colonB 5 (e ++ colonB :: (c ++ colonB :: (m ++ colonB :: (kf ++ colonB :: s))))
      = [e, c, m, kf, s] := by
  show splitNB colonB (3 + 2) _ = _
  rw [splitNB, splitFirst_append colonB _ _ he]
  show _ :: splitNB colonB (2 + 2) _ = _
  rw [splitNB, splitFirst_append colonB _ _ hc]
  show _ :: _ :: splitNB colonB (1 + 2) _ = _
  rw [splitNB, splitFirst_append colonB _ _ hm]
  show _ :: _ :: _ :: splitNB colonB (0 + 2) _ = _
  rw [splitNB, splitFirst_append colonB _ _ hk]
  rfl

/-- Every byte of a string accepted by the date parser is a digit or the
hyphen. -/
theorem parseDate_chars (s : BStr) (dt : Date) (h : parseDate s = some dt) :
    ∀ c ∈ s, isDigitB c = true ∨ c = byt 45 := by
  rcases s with _ | ⟨y1, _ | ⟨y2, _ | ⟨y3, _ | ⟨y4, _ | ⟨g1, _ | ⟨m1, _ | ⟨m2, _ |
    ⟨g2, _ | ⟨d1, _ | ⟨d2, _ | ⟨x, rest⟩⟩⟩⟩⟩⟩⟩⟩⟩⟩⟩ <;>
    simp only [parseDate] at h <;> try exact Option.noConfusion h
  split at h
  case isFalse => exact absurd h (by simp)
  case isTrue hcond =>
    clear h
    simp only [Bool.and_eq_true, beq_iff_eq] at hcond
    obtain ⟨⟨⟨⟨⟨⟨⟨⟨⟨q1, q2⟩, q3⟩, q4⟩, q5⟩, q6⟩, q7⟩, q8⟩, q9⟩, q10⟩ := hcond
    intro c hcmem
    simp only [List.mem_cons, List.not_mem_nil, or_false] at hcmem
    rcases hcmem with rfl | rfl | rfl | rfl | rfl | rfl | rfl | rfl | rfl | rfl
    · exact Or.inl q1
    · exact Or.inl q2
    · exact Or.inl q3
    · exact Or.inl q4
    · exact Or.inr q9
    · exact Or.inl q5
    · exact Or.inl q6
    · exact Or.inr q10
    · exact Or.inl q7
    · exact Or.inl q8

/-- A date string accepted by the parser contains no colon. -/
theorem parseDate_no_colon (s : BStr) (dt : Date) (h : parseDate s = some dt) :
    colonB ∉ s := by
  intro hmem
  rcases parseDate_chars s dt h colonB hmem with hdig | heq
  · exact absurd hdig (by decide)
  · exact absurd heq (by decide)

/-- C3 — License expiry policy: with `now` the (possibly overridden) current
time and `expiry` the token's date, strictly-past expiry is rejected as
expired; at most 24 hours of remaining time is a hard block (in particular
`expiry = now` is rejected); more than 24 hours and at most 7 days is a
non-fatal warning that succeeds; more than 7 days succeeds with no warning. -/
theorem expiry_policy_table (now expiry : Int) :
    (expiry < now → enforceExpiry now expiry = .expired)
    ∧ (now ≤ expiry ∧ expiry - now ≤ 86400 → enforceExpiry now expiry = .blocked)
    ∧ (86400 < expiry - now ∧ expiry - now ≤ 604800 → enforceExpiry now expiry = .warnOk)
    ∧ (604800 < expiry - now → enforceExpiry now expiry = .fullOk) := by
  unfold enforceExpiry
  refine ⟨fun h => ?_, fun h => ?_, fun h => ?_, fun h => ?_⟩ <;>
    simp only [] <;> split <;> first | rfl | omega | (split <;> first | rfl | omega |
      (split <;> first | rfl | omega))

/-- Witness for C3: concrete instants exercising each row of the policy
table, including `expiry = now` being hard-blocked. -/
theorem expiry_policy_table_witness :
    enforceExpiry 10 5 = .expired
    ∧ enforceExpiry 100 100 = .blocked
    ∧ enforceExpiry 0 100000 = .warnOk
    ∧ enforceExpiry 0 700000 = .fullOk :=
  ⟨(expiry_policy_table 10 5).1 (by norm_num),
   (expiry_policy_table 100 100).2.1 (by norm_num),
   (expiry_policy_table 0 100000).2.2.1 (by norm_num),
   (expiry_policy_table 0 700000).2.2.2 (by norm_num)⟩

/-! ### Helper lemmas on names, suffixes and directory lookups -/

/-- A list is a leading segment of itself followed by anything. -/
theorem hasPfx_self_append : ∀ (p t : BStr), hasPfx p (p ++ t) = true
  | [], _ => rfl
  | c :: ps, t => by simp [hasPfx, hasPfx_self_append ps t]

/-- Appending a suffix yields that suffix. -/
theorem hasSfx_append (x suf : BStr) : hasSfx (x ++ suf) suf = true := by
  unfold hasSfx
  rw [List.reverse_append]
  exact hasPfx_self_append suf.reverse x.reverse

/-- Trimming the suffix just appended recovers the original. -/
theorem trimSfx_append (x suf : BStr) : trimSfx (x ++ suf) suf = x := by
  unfold trimSfx
  rw [hasSfx_append, if_pos rfl]
  have hlen : (x ++ suf).length - suf.length = x.length := by
    simp [List.length_append]
  rw [hlen]
  exact List.take_left x suf

/-- A lookup skips a leading block none of whose names match. -/
theorem lookupD_append (xs ys : Dir) (n : BStr)
    (h : ∀ e ∈ xs, (e.1 == n) = false) :
    lookupD (xs ++ ys) n = lookupD ys n := by
  induction xs with
  | nil => rfl
  | cons e xs ih =>
    have he := h e (by simp)
    simp only [lookupD, List.cons_append, List.find?_cons, he]
    exact ih (fun x hx => h x (by simp [hx]))

/-- No ciphertext entry produced by the encryption pass carries a name
without the `".enc"` suffix. -/
theorem encName_ne (k : Nat) (ts : Int) (files : Dir) (n : BStr)
    (hn : hasSfx n encSuffix = false) :
    ∀ e ∈ encryptFilesWithFernet k ts files, (e.1 == n) = false := by
  intro e he
  simp only [encryptFilesWithFernet, List.mem_map] at he
  obtain ⟨f, _, rfl⟩ := he
  apply beq_eq_false_iff_ne.mpr
  intro heq
  rw [← heq, hasSfx_append] at hn
  exact Bool.noConfusion hn

/-- The decryption walk ignores a directory with no `".enc"` entries. -/
theorem decrypt_skip (k : Nat) (now : Int) :
    ∀ rest : Dir, (∀ e ∈ rest, hasSfx e.1 encSuffix = false) →
    decryptDirWithFernet k now rest = ([], none)
  | [], _ => rfl
  | (n, d) :: rest, h => by
    have h1 := h (n, d) (by simp)
    simp only at h1
    simp only [decryptDirWithFernet, h1, Bool.false_eq_true, if_false]
    exact decrypt_skip k now rest (fun e he => h e (by simp [he]))

/-- Decrypting the encryption pass's output (followed by any non-ciphertext
entries) under the same key recovers exactly the original files. -/
theorem decrypt_encrypt_dir (k : Nat) (ts now : Int) :
    ∀ (files rest : Dir), (∀ e ∈ rest, hasSfx e.1 encSuffix = false) →
    decryptDirWithFernet k now (encryptFilesWithFernet k ts files ++ rest)
      = (files, none)
  | [], rest, h => by
    simpa [encryptFilesWithFernet] using decrypt_skip k now rest h
  | (n, c) :: files, rest, h => by
    have ih := decrypt_encrypt_dir k ts now files rest h
    simp only [encryptFilesWithFernet, fernetEncryptAndSign, List.map_cons,
      List.cons_append] at ih ⊢
    simp only [decryptDirWithFernet, hasSfx_append, if_true,
      fernetVerifyAndDecrypt, List.mem_singleton, if_pos rfl,
      trimSfx_append, ih]
    simp

/-- The tail of an unpack run succeeds when the wrapped key is present,
unwraps, and the directory decrypts cleanly. -/
theorem unpackTail_ok (work : Dir) (priv : Nat) (now : Int) (tr : List Act)
    (wrapped : Bytes) (k : Nat) (out : Dir)
    (hw : lookupD work wrappedKeyName = some wrapped)
    (hu : unwrapFernetKey priv wrapped = some k)
    (hd : decryptDirWithFernet k now work = (out, none)) :
    (unpackTail work (some priv) now tr).2 = .ok out := by
  simp only [unpackTail, hw, hu, hd]

/-- C1 — Round trip: packing a flat directory of plaintext files for a
recipient key pair (fresh fernet key, per-file `<name>.enc` entries,
RSA-OAEP/SHA-256 key wrapping under the fixed label, zip build) and then
unpacking with the matching private key reproduces, for every original
file, a byte-identical file under the original name (suffix stripped) in
the output directory — here the whole output listing equals the input
listing. -/
theorem pack_unpack_roundtrip (files : Dir) (pubId keyId : Nat) (ts now : Int)
    (cleanup : Bool) : ∃ zents,
    (packagerMain ⟨files, some pubId, false, [], none, true, cleanup, keyId, ts⟩).zip
      = some zents
    ∧ (unpackMain ⟨zents, some pubId, [], [], [], now⟩).2 = .ok files := by
  refine ⟨encryptFilesWithFernet keyId ts files
    ++ [(wrappedKeyName, wrapFernetKey pubId keyId), (zipName, .txt [])], ?_, ?_⟩
  · cases cleanup <;>
      simp [packagerMain, packFinish, zipOutputs, List.append_assoc]
  · have hlookM : lookupD (encryptFilesWithFernet keyId ts files
        ++ [(wrappedKeyName, wrapFernetKey pubId keyId), (zipName, Bytes.txt [])])
        manifestName = none := by
      rw [lookupD_append _ _ _ (encName_ne _ _ _ _ (by decide))]
      rfl
    have hlookW : lookupD (encryptFilesWithFernet keyId ts files
        ++ [(wrappedKeyName, wrapFernetKey pubId keyId), (zipName, Bytes.txt [])])
        wrappedKeyName = some (wrapFernetKey pubId keyId) := by
      rw [lookupD_append _ _ _ (encName_ne _ _ _ _ (by decide))]
      rfl
    have hreq : requireLicenseB (encryptFilesWithFernet keyId ts files
        ++ [(wrappedKeyName, wrapFernetKey pubId keyId), (zipName, Bytes.txt [])])
        = false := by
      unfold requireLicenseB
      rw [hlookM]
    have hven : manifestHasVendorB (encryptFilesWithFernet keyId ts files
        ++ [(wrappedKeyName, wrapFernetKey pubId keyId), (zipName, Bytes.txt [])])
        = false := by
      unfold manifestHasVendorB
      rw [hlookM]
    have hdec := decrypt_encrypt_dir keyId ts now files
      [(wrappedKeyName, wrapFernetKey pubId keyId), (zipName, Bytes.txt [])]
      (by intro e he
          simp only [List.mem_cons, List.mem_singleton, List.not_mem_nil,
            or_false] at he
          rcases he with rfl | rfl
          · show hasSfx wrappedKeyName encSuffix = false
            decide
          · show hasSfx zipName encSuffix = false
            decide)
    simp only [unpackMain, vendorPathSetB, useWorkVendorB, hreq, hven]
    simp only [show (([] : BStr) == []) = true from rfl, Bool.not_true,
      Bool.or_false, Bool.false_or, Bool.and_false, Bool.false_eq_true, if_false]
    exact unpackTail_ok _ _ _ _ _ _ _ hlookW
      (by simp [unwrapFernetKey, wrapFernetKey]) hdec

/-- The unpack tail emits only wrapped-key/private-key/unwrap/decrypt
actions beyond the trace it is given. -/
theorem unpackTail_acts (work : Dir) (p : Option Nat) (now : Int)
    (tr : List Act) : ∀ act ∈ (unpackTail work p now tr).1,
    act ∈ tr ∨ act = Act.readWrapped ∨ act = Act.readPriv
      ∨ act = Act.unwrapKey ∨ act = Act.decryptRun := by
  intro act hact
  unfold unpackTail at hact
  repeat' split at hact
  all_goals
    simp only [List.mem_append, List.mem_cons, List.mem_singleton,
      List.not_mem_nil, or_false] at hact
  all_goals tauto

/-- The unpack tail preserves the trace it is given. -/
theorem unpackTail_keeps (work : Dir) (p : Option Nat) (now : Int)
    (tr : List Act) : ∀ act ∈ tr, act ∈ (unpackTail work p now tr).1 := by
  intro act hact
  unfold unpackTail
  repeat' split
  all_goals simp only [List.mem_append]
  all_goals exact Or.inl hact

/-- The Boolean license gate of `main` is exactly the spec's three-signal
disjunction. -/
theorem gate_iff_signals (a : UnpackArgs) :
    (requireLicenseB a.zip || !(a.licenseTokenArg == []) || vendorPathSetB a)
      = true ↔ licenseSignals a := by
  unfold requireLicenseB vendorPathSetB manifestHasVendorB licenseSignals
  rcases hm : lookupD a.zip manifestName with _ | b
  · simp only [hm, Bool.or_eq_true, Bool.not_eq_true', beq_eq_false_iff_ne]
    constructor
    · rintro ((h | h) | (h | h))
      · exact Bool.noConfusion h
      · exact Or.inr (Or.inl h)
      · exact Or.inr (Or.inr (Or.inl h))
      · exact Bool.noConfusion h
    · rintro (⟨s, hs, _⟩ | h | h | ⟨s, hs, _⟩)
      · exact Option.noConfusion hs
      · exact Or.inl (Or.inr h)
      · exact Or.inr (Or.inl h)
      · exact Option.noConfusion hs
  · cases b <;>
      (simp [hm, Bool.or_eq_true, Bool.not_eq_true', beq_eq_false_iff_ne];
        try tauto)

/-- C2 — Unpack engages license enforcement iff at least one of the three
signals is present: the extracted manifest declares the flag, a
license-token path was supplied, or a vendor-public-key path was supplied
or is resolvable from the archive.  Whenever a signal is present and no
token path was supplied, unpack fails with the configuration error before
the wrapped-key entry is read and before any unwrap attempt. -/
theorem license_gate (a : UnpackArgs) :
    ((∃ act ∈ (unpackMain a).1, act = Act.licNoToken ∨ act = Act.licNoVendor
        ∨ act = Act.licFail ∨ act = Act.licOk) ↔ licenseSignals a)
    ∧ (licenseSignals a → a.licenseTokenArg = [] →
        (unpackMain a).2 = Except.error UnpackErr.licRequiredNoToken
        ∧ Act.readWrapped ∉ (unpackMain a).1
        ∧ Act.unwrapKey ∉ (unpackMain a).1) := by
  by_cases hg : (requireLicenseB a.zip || !(a.licenseTokenArg == [])
      || vendorPathSetB a) = true
  case neg =>
    have hgf : (requireLicenseB a.zip || !(a.licenseTokenArg == [])
        || vendorPathSetB a) = false := by
      simpa using hg
    refine ⟨⟨fun ⟨act, hmem, hlic⟩ => ?_, fun hsig => ?_⟩, fun hsig _ => ?_⟩
    · simp only [unpackMain, hgf, Bool.false_eq_true, if_false] at hmem
      rcases unpackTail_acts _ _ _ _ act hmem with hin | h | h | h | h <;>
        [skip; subst h; subst h; subst h; subst h] <;>
        first
          | (simp only [List.mem_cons, List.not_mem_nil, or_false] at hin
             rcases hin with rfl | rfl <;>
               rcases hlic with h | h | h | h <;> exact Act.noConfusion h)
          | (rcases hlic with h | h | h | h <;> exact Act.noConfusion h)
    · exact absurd ((gate_iff_signals a).mpr hsig) hg
    · exact absurd ((gate_iff_signals a).mpr hsig) hg
  case pos =>
    refine ⟨⟨fun _ => (gate_iff_signals a).mp hg, fun hsig => ?_⟩,
      fun hsig htok => ?_⟩
    · simp only [unpackMain, hg, if_true]
      by_cases ht : (a.licenseTokenArg == []) = true
      · simp only [ht, if_true]
        exact ⟨Act.licNoToken, by simp, Or.inl rfl⟩
      · simp only [Bool.not_eq_true] at ht
        simp only [ht, Bool.false_eq_true, if_false]
        by_cases hv : vendorPathSetB a = true
        · simp only [hv, Bool.not_true, Bool.false_eq_true, if_false]
          rcases hver : verifyAndEnforceLicense
              (if useWorkVendorB a = true then lookupD a.zip vendorPubName
                else lookupD a.fs a.vendorPubArg)
              (lookupD a.fs a.licenseTokenArg) a.now with e | i
          · simp only [hver]
            exact ⟨Act.licFail, by simp, Or.inr (Or.inr (Or.inl rfl))⟩
          · simp only [hver]
            refine ⟨Act.licOk, unpackTail_keeps _ _ _ _ Act.licOk (by simp), ?_⟩
            exact Or.inr (Or.inr (Or.inr rfl))
        · simp only [Bool.not_eq_true] at hv
          simp only [hv, Bool.not_false, if_true]
          exact ⟨Act.licNoVendor, by simp, Or.inr (Or.inl rfl)⟩
    · have ht : (a.licenseTokenArg == []) = true := by simp [htok]
      simp only [unpackMain, hg, if_true]
      simp only [ht, if_true]
      refine ⟨by trivial, by decide, by decide⟩

/-- Witness for C2: an archive whose manifest declares the flag, unpacked
with no token path, fails with the configuration error without the
wrapped-key entry being read. -/
theorem license_gate_witness :
    (unpackMain ⟨[(manifestName, .txt manifestContent),
        (wrappedKeyName, .oaepKeyCT 1 oaepLabel 1)], some 1, [], [], [], 0⟩).2
      = Except.error UnpackErr.licRequiredNoToken
    ∧ Act.readWrapped ∉ (unpackMain ⟨[(manifestName, .txt manifestContent),
        (wrappedKeyName, .oaepKeyCT 1 oaepLabel 1)], some 1, [], [], [], 0⟩).1 :=
  have h := (license_gate ⟨[(manifestName, .txt manifestContent),
    (wrappedKeyName, .oaepKeyCT 1 oaepLabel 1)], some 1, [], [], [], 0⟩).2
    (Or.inl ⟨manifestContent, by decide⟩) rfl
  ⟨h.1, h.2.1⟩

/-- C6 counterexample — a successful unpack invocation of the command
(`cmd/unpack/main.go`) whose action trace contains no removal of the
working directory: the CLI never removes it, so extracted state survives
the call. -/
theorem cli_unpack_no_remove :
    Act.removeWork ∉ (unpackMain ⟨[(bs "a.enc", .fernetTok 1 0 (.txt (bs "hi"))),
        (wrappedKeyName, .oaepKeyCT 1 oaepLabel 1)], some 1, [], [], [], 0⟩).1
    ∧ (unpackMain ⟨[(bs "a.enc", .fernetTok 1 0 (.txt (bs "hi"))),
        (wrappedKeyName, .oaepKeyCT 1 oaepLabel 1)], some 1, [], [], [], 0⟩).2
      = Except.ok [(bs "a", .txt (bs "hi"))] := by
  exact ⟨by decide, by rfl⟩

/-- C6 (amended) — The library `SecurePackager.DecryptZip` removes its
temporary extraction directory on every exit path (deferred removal),
success or failure; the unpack command leaves its working directory in
place. -/
theorem decryptzip_always_removes (a : DZArgs) :
    Act.removeWork ∈ (DecryptZip a).1 := by
  unfold DecryptZip
  simp

/-- C7 counterexample — packaging with `-license` but no `-vendor-pub` and
a perfectly valid recipient key: the fatal error is raised only after every
input file was encrypted and the wrapped key written, so ciphertext entries
and the wrapped-key blob are present in the output directory. -/
theorem license_no_vendor_after_encryption :
    (packagerMain ⟨[(bs "a.txt", .txt (bs "hi"))], some 1, true, [], none,
        true, true, 5, 0⟩).err = some PackErr.licenseNoVendor
    ∧ (packagerMain ⟨[(bs "a.txt", .txt (bs "hi"))], some 1, true, [], none,
        true, true, 5, 0⟩).writes
      = [(bs "a.txt.enc", .fernetTok 5 0 (.txt (bs "hi"))),
         (wrappedKeyName, .oaepKeyCT 1 oaepLabel 5)] := by
  exact ⟨by rfl, by rfl⟩

/-- C7 (amended) — An unreadable or invalid recipient public key is fatal
before anything is produced in the output directory; licensing requested
without a vendor public key path is fatal only after the per-file
encryption and the wrapped-key write, leaving exactly those artifacts and
no manifest, vendor key or archive. -/
theorem pack_failure_policy (a : PackArgs) :
    (a.pubParse = none →
      packagerMain a = ⟨[], [], none, some PackErr.badPubKey⟩)
    ∧ (∀ pub, a.pubParse = some pub → a.licenseMode = true →
        trimSpace a.vendorPubArg = [] →
        (packagerMain a).err = some PackErr.licenseNoVendor
        ∧ (packagerMain a).writes
          = encryptFilesWithFernet a.keyId a.ts a.inDir
            ++ [(wrappedKeyName, wrapFernetKey pub a.keyId)]
        ∧ (packagerMain a).zip = none) := by
  constructor
  · intro h
    simp [packagerMain, h]
  · intro pub hpub hlic hven
    simp only [packagerMain, hpub, hlic, if_true, if_pos hven]
    exact ⟨by trivial, by trivial, by trivial⟩

/-- Witness for C7 (amended): both failure modes at concrete inputs. -/
theorem pack_failure_policy_witness :
    packagerMain ⟨[], none, false, [], none, true, true, 0, 0⟩
      = ⟨[], [], none, some PackErr.badPubKey⟩
    ∧ (packagerMain ⟨[(bs "f", .txt [])], some 2, true, [], none,
        true, true, 3, 1⟩).err = some PackErr.licenseNoVendor :=
  ⟨(pack_failure_policy ⟨[], none, false, [], none, true, true, 0, 0⟩).1 rfl,
   ((pack_failure_policy ⟨[(bs "f", .txt [])], some 2, true, [], none,
      true, true, 3, 1⟩).2 2 rfl rfl (by decide)).1⟩

/-- C9 — Issue/verify round trip: a token issued by `issue-token` under the
vendor private key — payload `expiry:company:email:NOFERNET`, RSA-PSS/SHA-256
signature, whole value base64url-encoded as one line — passes the verifier's
decoding, field-count, signature, and expiry-parse checks under the matching
vendor public key, which reports exactly the issued company, email and
expiry as structured license information. -/
theorem issue_verify_roundtrip (vendor : Nat) (a : IssueArgs) (dt : Date)
    (hpriv : a.privParse = some vendor)
    (hdt : parseDate a.expiry = some dt)
    (hcne : a.company ≠ []) (hene : a.email ≠ [])
    (hcc : colonB ∉ a.company) (hec : colonB ∉ a.email) :
    ∃ tok, issueToken a = .ok tok
      ∧ verifyTokenPhase vendor tok = .ok ⟨a.company, a.email, dt⟩ := by
  have hexne : a.expiry ≠ [] := by
    intro hnil
    rw [hnil] at hdt
    exact Option.noConfusion hdt
  have hflags : ¬(a.expiry = [] ∨ a.company = [] ∨ a.email = []) := by
    push_neg
    exact ⟨hexne, hcne, hene⟩
  have hparse : (parseDate a.expiry).isNone = false := by
    rw [hdt]; rfl
  -- the issued token
  simp only [issueToken, hflags, if_false, hparse, Bool.false_eq_true, hpriv]
  refine ⟨_, rfl, ?_⟩
  -- verification of the issued token
  set payload := a.expiry ++ colonB :: a.company ++ colonB :: a.email
    ++ colonB :: reservedField with hpayload
  set sig := pssSign vendor (sha256M payload) with hsig
  have htrim : trimSpace (b64encode (payload ++ colonB :: b64encode sig))
      = b64encode (payload ++ colonB :: b64encode sig) :=
    trimSpace_id _ (fun c hc => (b64encode_chars _ c hc).1)
  have hshape : payload ++ colonB :: b64encode sig
      = a.expiry ++ colonB :: (a.company ++ colonB :: (a.email ++ colonB ::
          (reservedField ++ colonB :: b64encode sig))) := by
    simp [hpayload, List.append_assoc]
  have hsplit := splitNB_five a.expiry a.company a.email reservedField
    (b64encode sig) (parseDate_no_colon _ _ hdt) hcc hec (by decide)
  rw [← hshape] at hsplit
  simp only [verifyTokenPhase, htrim, b64_roundtrip, hsplit, b64_roundtrip sig,
    ← hpayload, pssVerify, beq_self_eq_true, if_true, hdt]

/-- Witness for C9: a concrete issued token verifies and reports the issued
fields. -/
theorem issue_verify_roundtrip_witness :
    ∃ tok, issueToken ⟨some 7, bs "2099-12-31", bs "ACME", bs "dev@acme.example"⟩
        = .ok tok
      ∧ verifyTokenPhase 7 tok
        = .ok ⟨bs "ACME", bs "dev@acme.example", ⟨2099, 12, 31⟩⟩ :=
  issue_verify_roundtrip 7 ⟨some 7, bs "2099-12-31", bs "ACME", bs "dev@acme.example"⟩
    ⟨2099, 12, 31⟩ rfl (by decide) (by decide) (by decide) (by decide) (by decide)

/-- C8 — Token verification proceeds in this order: base64url-decode the
(trimmed) token line, else a token-encoding error; `SplitN` the decoded text
on colons with limit five, a format error unless five fields result;
base64url-decode the fifth field and check the RSA-PSS signature over the
SHA-256 digest of the first four fields re-joined with colons, failing on
mismatch; finally parse the first field as a `YYYY-MM-DD` date, a format
error if unparseable; success reports the parsed fields. -/
theorem token_verification_order (pub : Nat) (tok : BStr) :
    (b64decode (trimSpace tok) = none → verifyTokenPhase pub tok = .error .badB64)
    ∧ (∀ d, b64decode (trimSpace tok) = some d →
        (splitNB colonB 5 d).length ≠ 5 →
        verifyTokenPhase pub tok = .error .badFormat)
    ∧ (∀ d e c m kb sb, b64decode (trimSpace tok) = some d →
        splitNB colonB 5 d = [e, c, m, kb, sb] →
        (b64decode sb = none → verifyTokenPhase pub tok = .error .badSigB64)
        ∧ (∀ sig, b64decode sb = some sig →
            (pssVerify pub (sha256M (e ++ colonB :: c ++ colonB :: m ++ colonB :: kb))
                sig = false →
              verifyTokenPhase pub tok = .error .sigInvalid)
            ∧ (pssVerify pub (sha256M (e ++ colonB :: c ++ colonB :: m ++ colonB :: kb))
                sig = true →
              (parseDate e = none → verifyTokenPhase pub tok = .error .badExpiry)
              ∧ (∀ dt, parseDate e = some dt →
                  verifyTokenPhase pub tok = .ok ⟨c, m, dt⟩)))) := by
  refine ⟨fun h => ?_, fun d hd hlen => ?_, fun d e c m kb sb hd hsplit => ?_⟩
  · simp only [verifyTokenPhase, h]
  · simp only [verifyTokenPhase, hd]
    rcases hsp : splitNB colonB 5 d with _ | ⟨p1, _ | ⟨p2, _ | ⟨p3, _ | ⟨p4, _ |
      ⟨p5, _ | ⟨p6, tl⟩⟩⟩⟩⟩⟩ <;> first
      | rfl
      | (exact absurd (by rw [hsp]; rfl) hlen)
  · refine ⟨fun hsb => ?_, fun sig hsig => ?_⟩
    · simp only [verifyTokenPhase, hd, hsplit, hsb]
    · refine ⟨fun hv => ?_, fun hv => ?_⟩
      · simp only [verifyTokenPhase, hd, hsplit, hsig, hv, Bool.false_eq_true,
          if_false]
      · refine ⟨fun hpe => ?_, fun dt hpe => ?_⟩
        · simp only [verifyTokenPhase, hd, hsplit, hsig, hv, if_true, hpe]
        · simp only [verifyTokenPhase, hd, hsplit, hsig, hv, if_true, hpe]

/-- Witness for C8: a token whose decoded text has no colons fails with the
format error at the field-count stage. -/
theorem token_verification_order_witness :
    verifyTokenPhase 0 (b64encode (bs "hello")) = .error .badFormat :=
  (token_verification_order 0 (b64encode (bs "hello"))).2.1 (bs "hello")
    (by rw [trimSpace_id _ (fun c hc => (b64encode_chars _ c hc).1)]
        exact b64_roundtrip (bs "hello"))
    (by decide)

/-- With a time-to-live of zero, fernet verification never consults the
clock: the result is the same at any two instants. -/
theorem fernet_ttl_zero_clock_free (tok : Bytes) (keys : List Nat)
    (now now' : Int) :
    fernetVerifyAndDecrypt tok 0 keys now
      = fernetVerifyAndDecrypt tok 0 keys now' := by
  cases tok <;> simp [fernetVerifyAndDecrypt]

/-- C10 — Unpack's decryption phase passes `ttl = 0` to the authenticated
cipher, so the embedded timestamp is never compared against the current
time: the whole directory decryption is clock-independent, and a token
encrypted under the correct key decrypts successfully regardless of its
age. -/
theorem decrypt_ignores_token_age :
    (∀ (k : Nat) (d : Dir) (now now' : Int),
      decryptDirWithFernet k now d = decryptDirWithFernet k now' d)
    ∧ (∀ (k : Nat) (ts : Int) (pt : Bytes) (now : Int),
      fernetVerifyAndDecrypt (.fernetTok k ts pt) 0 [k] now = some pt) := by
  constructor
  · intro k d now now'
    induction d with
    | nil => rfl
    | cons e rest ih =>
      simp only [decryptDirWithFernet]
      rw [fernet_ttl_zero_clock_free e.2 [k] now now', ih]
  · intro k ts pt now
    simp [fernetVerifyAndDecrypt]

/-- C5 — During the final decryption phase, a failing ciphertext entry
aborts the whole walk with an error naming that entry; the output directory
receives exactly the files decrypted before the failure — nothing for the
failing entry and nothing for the entries after it. -/
theorem decrypt_failure_aborts (k : Nat) (now : Int) (good : Dir)
    (bad : BStr × Bytes) (rest : Dir)
    (hgood : ∀ e ∈ good, hasSfx e.1 encSuffix = false
      ∨ ∃ pt, fernetVerifyAndDecrypt e.2 0 [k] now = some pt)
    (hbadSfx : hasSfx bad.1 encSuffix = true)
    (hbadDec : fernetVerifyAndDecrypt bad.2 0 [k] now = none) :
    (decryptDirWithFernet k now (good ++ bad :: rest)).2 = some bad.1
    ∧ (decryptDirWithFernet k now (good ++ bad :: rest)).1
      = (decryptDirWithFernet k now good).1 := by
  induction good with
  | nil =>
    obtain ⟨n, dta⟩ := bad
    simp only [List.nil_append, decryptDirWithFernet]
    simp only at hbadSfx hbadDec
    rw [hbadSfx] at *
    simp [hbadDec, decryptDirWithFernet]
  | cons e good' ih =>
    obtain ⟨n, dta⟩ := e
    have he := hgood (n, dta) (by simp)
    have hrest : ∀ x ∈ good', hasSfx x.1 encSuffix = false
        ∨ ∃ pt, fernetVerifyAndDecrypt x.2 0 [k] now = some pt := by
      intro x hx; exact hgood x (by simp [hx])
    obtain ⟨ihl, ihr⟩ := ih hrest
    rcases he with hskip | ⟨pt, hpt⟩
    · simp only at hskip
      simp only [List.cons_append, decryptDirWithFernet, hskip]
      exact ⟨ihl, ihr⟩
    · simp only at hpt
      by_cases hs : hasSfx n encSuffix
      · simp only [List.cons_append, decryptDirWithFernet, hs, if_true, hpt]
        exact ⟨ihl, by simp [ihr]⟩
      · simp only [Bool.not_eq_true] at hs
        simp only [List.cons_append, decryptDirWithFernet, hs, Bool.false_eq_true,
          if_false]
        exact ⟨ihl, ihr⟩

/-- Witness for C5: a concrete three-entry working directory whose middle
entry is not a valid fernet token — the walk stops there with exactly the
first entry decrypted. -/
theorem decrypt_failure_aborts_witness :
    (decryptDirWithFernet 1 0
        [(bs "a.txt.enc", .fernetTok 1 0 (.txt (bs "hello"))),
         (bs "b.txt.enc", .txt (bs "garbage")),
         (bs "c.txt.enc", .fernetTok 1 0 (.txt (bs "world")))]).2
      = some (bs "b.txt.enc")
    ∧ (decryptDirWithFernet 1 0
        [(bs "a.txt.enc", .fernetTok 1 0 (.txt (bs "hello"))),
         (bs "b.txt.enc", .txt (bs "garbage")),
         (bs "c.txt.enc", .fernetTok 1 0 (.txt (bs "world")))]).1
      = (decryptDirWithFernet 1 0
          [(bs "a.txt.enc", .fernetTok 1 0 (.txt (bs "hello")))]).1 := by
  have h := decrypt_failure_aborts 1 0
    [(bs "a.txt.enc", .fernetTok 1 0 (.txt (bs "hello")))]
    (bs "b.txt.enc", .txt (bs "garbage"))
    [(bs "c.txt.enc", .fernetTok 1 0 (.txt (bs "world")))]
    (by intro e he
        simp only [List.mem_singleton] at he
        subst he
        exact Or.inr ⟨.txt (bs "hello"), rfl⟩)
    (by decide)
    (by rfl)
  simpa using h

end SecPack
